import Mathlib

/-!
Verification of the CryptoClever backend candle pipeline.

Shallow embedding of the modules under backend/app:
  utils.py        (normalize_symbol, normalize_interval, build_candle_key)
  config.py       (BUFFER_SIZE)
  redis_store.py  (get_candles, append_candle, set_candles; in-memory branch,
                   the Redis branch implements the same list logic modulo JSON
                   round-tripping)
  binance_ws.py   (INTERVAL_SECONDS, the gap-fill block of run_binance_ws,
                   fetch_klines_range, bootstrap_symbol_interval)
  ws_broadcast.py (subscribe, unsubscribe, set_subscriptions, unsubscribe_all,
                   broadcast_candle)

Python dictionaries are modelled as total functions with an empty default
(an absent key and a key holding the empty collection are observationally
identical through this API: every read goes through dict.get with an empty
default).  Python sets are modelled as duplicate-free lists.  Candle time
values are integers (seconds), as produced by every constructor in the
code (int(k["t"]) // 1000 and k[0] // 1000); OHLCV floats are modelled as
rationals.  Network I/O results (HTTP responses, websocket send outcomes)
enter the model as explicit inputs.
-/

namespace CryptoClever

/-- One OHLCV candle, the dict built by _kline_to_candle / the kline REST
parser: time (bucket start, seconds), open, high, low, close, volume, and
the optional is_closed flag (absent on REST-parsed candles). -/
structure Candle where
  time : Int
  op : ℚ
  hi : ℚ
  lo : ℚ
  cl : ℚ
  vol : ℚ
  closedFlag : Option Bool := none
  deriving DecidableEq, Repr

/-- Comparison used by the sort in append_candle: data.sort(key=lambda x: x.get("time", 0)). -/
def leTime (a b : Candle) : Prop := a.time ≤ b.time

/-- Strict version of leTime; a series satisfying the spec invariant is Pairwise ltTime. -/
def ltTime (a b : Candle) : Prop := a.time < b.time

instance : DecidableRel leTime := fun a b => inferInstanceAs (Decidable (a.time ≤ b.time))

instance : DecidableRel ltTime := fun a b => inferInstanceAs (Decidable (a.time < b.time))

instance : IsTotal Candle leTime := ⟨fun a b => Int.le_total a.time b.time⟩

instance : IsTrans Candle leTime := ⟨fun _ _ _ h h2 => le_trans h h2⟩

instance : IsAntisymm Candle ltTime := ⟨fun _ _ h h2 => absurd (lt_trans h h2) (lt_irrefl _)⟩

/-- Python str.strip(): drop leading and trailing whitespace (structural
character-list form, so the kernel can evaluate it). -/
def stripStr (s : String) : String :=
  String.mk (((s.data.dropWhile Char.isWhitespace).reverse.dropWhile Char.isWhitespace).reverse)

/-- Python str.upper() on the ASCII tokens the system uses. -/
def upperStr (s : String) : String :=
  String.mk (s.data.map Char.toUpper)

/-- Python str.lower() on the ASCII tokens the system uses. -/
def lowerStr (s : String) : String :=
  String.mk (s.data.map Char.toLower)

/-- utils.normalize_symbol for a string argument: (symbol or "").strip().upper(). -/
def normalize_symbol (symbol : String) : String :=
  upperStr (stripStr symbol)

/-- utils.normalize_symbol including the None case of (symbol or ""). -/
def normalize_symbolOpt (symbol : Option String) : String :=
  normalize_symbol (symbol.getD "")

/-- utils.normalize_interval for a string argument: empty is falsy so it
returns "1m"; otherwise strip, map "1D" to "1d", else lowercase. -/
def normalize_interval (interval : String) : String :=
  if interval = "" then "1m"
  else
    let iv := stripStr interval
    if upperStr iv = "1D" then "1d" else lowerStr iv

/-- utils.normalize_interval including the None case (also falsy, so "1m"). -/
def normalize_intervalOpt (interval : Option String) : String :=
  match interval with
  | none => "1m"
  | some s => normalize_interval s

/-- utils.build_candle_key: "candles:SYMBOL:interval". -/
def build_candle_key (symbol interval : String) : String :=
  "candles:" ++ normalize_symbol symbol ++ ":" ++ normalize_interval interval

/-- build_candle_key with possibly-missing (None) arguments. -/
def build_candle_keyOpt (symbol interval : Option String) : String :=
  "candles:" ++ normalize_symbolOpt symbol ++ ":" ++ normalize_intervalOpt interval

/-- config.BUFFER_SIZE: max candles per symbol/interval. -/
def BUFFER_SIZE : Nat := 1000

/-- The replace-in-place scan of append_candle: walk the list and replace the
first entry whose time equals t, returning none when no entry matches (the
int coercion of the source is the identity on integer times). -/
def updateFirstByTime (t : Int) (candle : Candle) : List Candle → Option (List Candle)
  | [] => none
  | c :: rest =>
    if c.time = t then some (candle :: rest)
    else
      match updateFirstByTime t candle rest with
      | some r => some (c :: r)
      | none => none

/-- Core of redis_store.append_candle with the buffer capacity as a
parameter: replace in place when the time already exists, otherwise append,
stable-sort by time (data.sort(key=time), modelled by insertionSort, which
is stable and agrees with any stable sort on this total preorder), then
keep the last cap entries when the length exceeds cap (data[-cap:]). -/
def appendA (cap : Nat) (data : List Candle) (candle : Candle) : List Candle :=
  match updateFirstByTime candle.time candle data with
  | some updated => updated
  | none =>
    let sorted := List.insertionSort leTime (data ++ [candle])
    if cap < sorted.length then sorted.drop (sorted.length - cap) else sorted

/-- redis_store.append_candle acting on one series list (cap = BUFFER_SIZE). -/
def appendCandle (data : List Candle) (candle : Candle) : List Candle :=
  appendA BUFFER_SIZE data candle

/-- The slice taken by redis_store.get_candles: if len(data) > limit return
data[-limit:] else a copy of data.  The inner limit = 0 branch records the
Python quirk that data[-0:] is data[0:], the whole list. -/
def sliceLast (data : List Candle) (limit : Nat) : List Candle :=
  if limit < data.length then
    if limit = 0 then data else data.drop (data.length - limit)
  else data

/-- The in-memory store _memory_store: key to series, absent key = empty. -/
def Store : Type := String → List Candle

/-- The store at process start (empty dict). -/
def emptyStore : Store := fun _ => []

/-- Dict assignment _memory_store[key] = v. -/
def storeSet (s : Store) (key : String) (v : List Candle) : Store :=
  fun k => if k = key then v else s k

/-- redis_store.get_candles (memory branch): read the series for the built
key and slice off the last limit entries. -/
def get_candles (s : Store) (symbol interval : String) (limit : Nat) : List Candle :=
  sliceLast (s (build_candle_key symbol interval)) limit

/-- redis_store.append_candle (memory branch) at store level. -/
def append_candle (s : Store) (symbol interval : String) (candle : Candle) : Store :=
  let key := build_candle_key symbol interval
  storeSet s key (appendCandle (s key) candle)

/-- redis_store.set_candles: wholesale replace, truncated to the last
BUFFER_SIZE entries when over capacity. -/
def set_candles (s : Store) (symbol interval : String) (candles : List Candle) : Store :=
  let key := build_candle_key symbol interval
  storeSet s key
    (if BUFFER_SIZE < candles.length then candles.drop (candles.length - BUFFER_SIZE) else candles)

/-- binance_ws.INTERVAL_SECONDS: interval token to seconds for gap detection. -/
def INTERVAL_SECONDS : List (String × Int) :=
  [("1m", 60), ("3m", 180), ("5m", 300), ("15m", 900), ("30m", 1800),
   ("1h", 3600), ("2h", 7200), ("4h", 14400), ("6h", 21600), ("8h", 28800), ("12h", 43200),
   ("1d", 86400), ("3d", 259200), ("1w", 604800)]

/-- binance_ws._interval_seconds: table lookup on the normalized token with default 60. -/
def interval_seconds (interval : String) : Int :=
  (INTERVAL_SECONDS.lookup (normalize_interval interval)).getD 60

/-- The gap test of run_binance_ws (lines 219-223): request a backfill for
the inclusive range (last_ts + step, new_ts - step) only when
new_ts > last_ts + step and additionally end_sec >= start_sec. -/
def gapRequestRange (step last_ts new_ts : Int) : Option (Int × Int) :=
  if last_ts + step < new_ts then
    let start_sec := last_ts + step
    let end_sec := new_ts - step
    if start_sec ≤ end_sec then some (start_sec, end_sec) else none
  else none

/-- The per-event reconcile-and-write block of run_binance_ws (lines
209-228).  boot is the list of candles a successful bootstrap of this key
would write (empty on bootstrap failure, which writes nothing); fetch gives
the candles fetch_klines_range returns for a requested range (empty on
transport failure).  An exception escaping the gap-fill block is caught and
the triggering candle appended anyway, which coincides with fetch returning
the empty list. -/
def ingestStep (boot : List Candle) (fetch : Int → Int → List Candle)
    (store : Store) (symbol interval : String) (candle : Candle) : Store :=
  let data0 := get_candles store symbol interval 1000
  let store1 :=
    if data0 = [] then (if boot = [] then store else set_candles store symbol interval boot)
    else store
  let data := if data0 = [] then get_candles store1 symbol interval 1000 else data0
  let store2 :=
    match data.getLast? with
    | none => store1
    | some tail =>
      match gapRequestRange (interval_seconds interval) tail.time candle.time with
      | some range =>
        (fetch range.1 range.2).foldl (fun st c => append_candle st symbol interval c) store1
      | none => store1
  append_candle store2 symbol interval candle

/-! ## JSON values and the Python semantics of the kline row parser

The parse loops of fetch_klines_range and bootstrap_symbol_interval run
after (outside) the try/except block, so any exception they raise
propagates to the caller.  We model decoded JSON values, Python indexing,
floor division and float() as Except computations over this value type. -/

/-- A decoded JSON value as Python represents it (integral JSON numbers
decode to int; the klines endpoint uses ints and decimal strings). -/
inductive JVal where
  | jint (n : Int)
  | jstr (s : String)
  | jarr (elems : List JVal)
  | jbool (b : Bool)
  | jnull

/-- The Python exception classes the row parser can raise. -/
inductive PyErr where
  | typeError
  | indexError
  | valueError
  deriving DecidableEq, Repr

/-- Python subscript k[i]: list indexing (IndexError past the end), string
indexing (a one-character string), TypeError on non-subscriptable values. -/
def pyIndex (v : JVal) (i : Nat) : Except PyErr JVal :=
  match v with
  | .jarr l =>
    match l.get? i with
    | some x => .ok x
    | none => .error .indexError
  | .jstr s =>
    match s.toList.get? i with
    | some ch => .ok (.jstr (String.singleton ch))
    | none => .error .indexError
  | _ => .error .typeError

/-- Python v // d for integer d: floor division on ints (bool counts as
0/1), TypeError otherwise. -/
def pyFloorDivInt (v : JVal) (d : Int) : Except PyErr Int :=
  match v with
  | .jint n => .ok (Int.fdiv n d)
  | .jbool b => .ok (Int.fdiv (if b then 1 else 0) d)
  | _ => .error .typeError

/-- Digit-string value accumulator for the decimal literal reader. -/
def decDigitsVal (l : List Char) : Nat :=
  l.foldl (fun acc ch => acc * 10 + (ch.toNat - 48)) 0

/-- Python float(s) on the plain decimal literals the exchange sends:
optional sign, digits, optional fractional part; none when s is not such a
literal (ValueError). -/
def pyFloatOfStr (s : String) : Option ℚ :=
  let t := (stripStr s).data
  let signAndRest : ℚ × List Char :=
    match t with
    | '-' :: r => (-1, r)
    | '+' :: r => (1, r)
    | r => (1, r)
  let sign := signAndRest.1
  let rest := signAndRest.2
  let intPart := rest.takeWhile Char.isDigit
  let rest2 := rest.dropWhile Char.isDigit
  match rest2 with
  | [] =>
    if intPart = [] then none
    else some (sign * (decDigitsVal intPart : ℚ))
  | '.' :: fr =>
    if fr.all Char.isDigit ∧ (intPart ≠ [] ∨ fr ≠ []) then
      some (sign * ((decDigitsVal (intPart ++ fr) : ℚ) / ((10 : ℚ) ^ fr.length)))
    else none
  | _ => none

/-- Python float(v): numbers pass through, strings go through the literal
reader (ValueError on failure), everything else is a TypeError. -/
def pyFloat (v : JVal) : Except PyErr ℚ :=
  match v with
  | .jint n => .ok (n : ℚ)
  | .jbool b => .ok (if b then 1 else 0)
  | .jstr s =>
    match pyFloatOfStr s with
    | some q => .ok q
    | none => .error .valueError
  | _ => .error .typeError

/-- One iteration of the kline parse loop shared by bootstrap_symbol_interval
and fetch_klines_range: time = k[0] // 1000, open/high/low/close/volume =
float(k[1..5]); no is_closed key. -/
def parseKlineRow (k : JVal) : Except PyErr Candle := do
  let t0 ← pyIndex k 0
  let t ← pyFloorDivInt t0 1000
  let o ← pyIndex k 1 >>= pyFloat
  let h ← pyIndex k 2 >>= pyFloat
  let l ← pyIndex k 3 >>= pyFloat
  let c ← pyIndex k 4 >>= pyFloat
  let v ← pyIndex k 5 >>= pyFloat
  pure { time := t, op := o, hi := h, lo := l, cl := c, vol := v }

/-- The whole parse loop: stops at (raises) the first failing row. -/
def parseKlineRows : List JVal → Except PyErr (List Candle)
  | [] => .ok []
  | k :: rest => do
    let c ← parseKlineRow k
    let cs ← parseKlineRows rest
    pure (c :: cs)

/-- The transport/JSON-decode failures the try/except of the two REST
helpers catches (httpx errors, raise_for_status, r.json() decode errors). -/
inductive TransportErr where
  | httpError
  deriving DecidableEq, Repr

/-- binance_ws.fetch_klines_range with the HTTP outcome as input: a caught
transport failure returns the empty list; on success the parse loop runs
outside the try block, so a row parse failure is a raised exception. -/
def fetch_klines_range (resp : Except TransportErr (List JVal)) : Except PyErr (List Candle) :=
  match resp with
  | .error _ => .ok []
  | .ok rows => parseKlineRows rows

/-- binance_ws.bootstrap_symbol_interval with the HTTP outcome as input: a
caught transport failure returns without writing; on success the parse loop
runs outside the try block and its exceptions propagate; parsed candles are
written with set_candles. -/
def bootstrap_symbol_interval (resp : Except TransportErr (List JVal))
    (store : Store) (symbol interval : String) : Except PyErr Store :=
  match resp with
  | .error _ => .ok store
  | .ok rows => do
    let candles ← parseKlineRows rows
    pure (set_candles store symbol interval candles)

/-! ## Subscription registry and broadcaster (ws_broadcast.py) -/

/-- A normalized (symbol, interval) pair, the registry key. -/
abbrev SKey := String × String

/-- A client websocket connection, identified abstractly. -/
abbrev Conn := Nat

/-- ws_broadcast._norm_key. -/
def norm_key (symbol interval : String) : SKey :=
  (normalize_symbol symbol, normalize_interval interval)

/-- Python set.add on a set modelled as a duplicate-free list. -/
def setAdd {α : Type} [DecidableEq α] (x : α) (l : List α) : List α :=
  if x ∈ l then l else l ++ [x]

/-- The two registry dicts of ws_broadcast: _subscribers (key to set of
connections) and _connection_subs (connection to set of keys); an absent
entry reads as the empty set. -/
structure Registry where
  subscribers : SKey → List Conn
  connSubs : Conn → List SKey

/-- The registry at process start (both dicts empty). -/
def emptyRegistry : Registry :=
  { subscribers := fun _ => [], connSubs := fun _ => [] }

/-- ws_broadcast.subscribe: add one mapping on both sides. -/
def subscribe (r : Registry) (ws : Conn) (symbol interval : String) : Registry :=
  let key := norm_key symbol interval
  { subscribers := fun k => if k = key then setAdd ws (r.subscribers k) else r.subscribers k
    connSubs := fun c => if c = ws then setAdd key (r.connSubs c) else r.connSubs c }

/-- ws_broadcast.unsubscribe: discard one mapping on both sides. -/
def unsubscribe (r : Registry) (ws : Conn) (symbol interval : String) : Registry :=
  let key := norm_key symbol interval
  { subscribers := fun k => if k = key then (r.subscribers k).erase ws else r.subscribers k
    connSubs := fun c => if c = ws then (r.connSubs c).erase key else r.connSubs c }

/-- ws_broadcast.set_subscriptions: remove the connection from the
subscriber set of every key it held, then install the normalized new key
list (as a set) and add the connection to each of those keys. -/
def set_subscriptions (r : Registry) (ws : Conn) (subs : List (String × String)) : Registry :=
  let old := r.connSubs ws
  let cleared : SKey → List Conn :=
    fun k => if k ∈ old then (r.subscribers k).erase ws else r.subscribers k
  let keys := subs.map (fun p => norm_key p.1 p.2)
  { subscribers := fun k => if k ∈ keys then setAdd ws (cleared k) else cleared k
    connSubs := fun c => if c = ws then keys.dedup else r.connSubs c }

/-- ws_broadcast.unsubscribe_all: discard the connection from every key it
held and drop its reverse entry. -/
def unsubscribe_all (r : Registry) (ws : Conn) : Registry :=
  let keys := r.connSubs ws
  { subscribers := fun k => if k ∈ keys then (r.subscribers k).erase ws else r.subscribers k
    connSubs := fun c => if c = ws then [] else r.connSubs c }

/-- The message broadcast_candle serializes once per call (json.dumps of
type "candle", symbol, interval, candle; json.dumps is injective on these
payloads, so message equality is equality of this record). -/
structure Msg where
  symbol : String
  interval : String
  candle : Candle
  deriving DecidableEq, Repr

/-- ws_broadcast.broadcast_candle.  fails says which connections raise on
send_text (a network outcome, supplied as input).  Returns the list of
delivery attempts (connection, payload) in snapshot order, and the registry
after the dead-connection cleanup: each failed connection is discarded from
the subscriber set of this key only. -/
def broadcast_candle (fails : Conn → Bool) (r : Registry) (symbol interval : String)
    (candle : Candle) : List (Conn × Msg) × Registry :=
  let key := norm_key symbol interval
  let sockets := r.subscribers key
  let payload : Msg := { symbol := key.1, interval := key.2, candle := candle }
  let attempts := sockets.map (fun ws => (ws, payload))
  let dead := sockets.filter (fun ws => fails ws)
  let cleaned :=
    if dead = [] then r
    else
      { r with
        subscribers := fun k =>
          if k = key then dead.foldl (fun s w => s.erase w) (r.subscribers key)
          else r.subscribers k }
  (attempts, cleaned)

/-- One direction of registry consistency: every subscriber listing is
reflected in the reverse map. -/
def RegInvFwd (r : Registry) : Prop :=
  ∀ (c : Conn) (k : SKey), c ∈ r.subscribers k → k ∈ r.connSubs c

/-- The other direction: every reverse-map entry is a live subscription. -/
def RegInvBack (r : Registry) : Prop :=
  ∀ (c : Conn) (k : SKey), k ∈ r.connSubs c → c ∈ r.subscribers k

/-- Python sets hold no duplicates: both registry sides are duplicate-free
lists. -/
def RegNodup (r : Registry) : Prop :=
  (∀ k, (r.subscribers k).Nodup) ∧ (∀ c, (r.connSubs c).Nodup)

/-- The full bidirectional registry invariant of the spec. -/
def RegInv (r : Registry) : Prop :=
  RegInvFwd r ∧ RegInvBack r ∧ RegNodup r

/-- A candle with a given time and zero prices, used to instantiate the
theorems on concrete inputs. -/
def mkC (t : Int) : Candle :=
  { time := t, op := 0, hi := 0, lo := 0, cl := 0, vol := 0 }

/-- Keep the last cap entries of a list (data[-cap:] for a list of length
at least cap; the whole list otherwise). -/
def dropToCap (cap : Nat) (l : List Candle) : List Candle :=
  l.drop (l.length - cap)

/-! ## Lemmas about the series order -/

theorem pairwise_lt_of_le_nodup {l : List Candle}
    (hle : l.Pairwise leTime) (hnd : (l.map Candle.time).Nodup) : l.Pairwise ltTime := by
  induction l with
  | nil => exact List.Pairwise.nil
  | cons a l ih =>
    rw [List.map_cons] at hnd
    rcases List.pairwise_cons.mp hle with ⟨hle1, hle2⟩
    rcases List.nodup_cons.mp hnd with ⟨hne1, hne2⟩
    refine List.Pairwise.cons (fun b hb => lt_of_le_of_ne (hle1 b hb) ?_) (ih hle2 hne2)
    intro he
    exact hne1 (by rw [he]; exact List.mem_map_of_mem Candle.time hb)

theorem nodup_times_of_pairwise_lt {l : List Candle}
    (h : l.Pairwise ltTime) : (l.map Candle.time).Nodup :=
  List.pairwise_map.mpr (h.imp fun hab => ne_of_lt hab)

theorem pairwise_le_of_lt {l : List Candle} (h : l.Pairwise ltTime) : l.Pairwise leTime :=
  h.imp fun hab => le_of_lt hab

/-- Two strictly time-sorted permutations of the same list are equal. -/
theorem eq_of_perm_of_pairwise_lt {l₁ l₂ : List Candle} (hp : l₁.Perm l₂)
    (h₁ : l₁.Pairwise ltTime) (h₂ : l₂.Pairwise ltTime) : l₁ = l₂ :=
  List.eq_of_perm_of_sorted hp h₁ h₂

/-- insertionSort of a list with duplicate-free times is its unique
strictly time-sorted rearrangement. -/
theorem insertionSort_pairwise_lt {l : List Candle} (hnd : (l.map Candle.time).Nodup) :
    (List.insertionSort leTime l).Pairwise ltTime := by
  refine pairwise_lt_of_le_nodup (List.sorted_insertionSort leTime l) ?_
  have hp : (List.insertionSort leTime l).map Candle.time |>.Perm (l.map Candle.time) :=
    (List.perm_insertionSort leTime l).map Candle.time
  exact hp.nodup_iff.mpr hnd

theorem insertionSort_eq_of_pairwise_lt {l s : List Candle} (hp : s.Perm l)
    (hs : s.Pairwise ltTime) : List.insertionSort leTime l = s := by
  have hnd : (l.map Candle.time).Nodup := by
    have := nodup_times_of_pairwise_lt hs
    exact ((hp.map Candle.time).nodup_iff).mp this
  exact eq_of_perm_of_pairwise_lt ((List.perm_insertionSort leTime l).trans hp.symm)
    (insertionSort_pairwise_lt hnd) hs

/-! ## Lemmas about updateFirstByTime -/

theorem updateFirstByTime_eq_none {t : Int} {c : Candle} :
    ∀ {data : List Candle}, updateFirstByTime t c data = none ↔ t ∉ data.map Candle.time := by
  intro data
  induction data with
  | nil => simp [updateFirstByTime]
  | cons a rest ih =>
    by_cases h : a.time = t
    · simp [updateFirstByTime, h]
    · rcases hopt : updateFirstByTime t c rest with _ | r
      · rw [updateFirstByTime, if_neg h, hopt]
        have h1 : t ∉ rest.map Candle.time := ih.mp hopt
        have h2 : ¬t = a.time := fun he => h he.symm
        simp [h1, h2]
      · rw [updateFirstByTime, if_neg h, hopt]
        have : t ∈ rest.map Candle.time := by
          by_contra hm
          rw [ih.mpr hm] at hopt
          cases hopt
        simp [this]

theorem updateFirstByTime_length {t : Int} {c : Candle} :
    ∀ {data out : List Candle}, updateFirstByTime t c data = some out →
      out.length = data.length := by
  intro data
  induction data with
  | nil => intro out h; cases h
  | cons a rest ih =>
    intro out h
    by_cases ha : a.time = t
    · rw [updateFirstByTime, if_pos ha] at h
      cases h; simp
    · rcases hopt : updateFirstByTime t c rest with _ | r
      · rw [updateFirstByTime, if_neg ha, hopt] at h; cases h
      · rw [updateFirstByTime, if_neg ha, hopt] at h
        cases h
        simp [ih hopt]

theorem updateFirstByTime_map_time {t : Int} {c : Candle} (hc : c.time = t) :
    ∀ {data out : List Candle}, updateFirstByTime t c data = some out →
      out.map Candle.time = data.map Candle.time := by
  intro data
  induction data with
  | nil => intro out h; cases h
  | cons a rest ih =>
    intro out h
    by_cases ha : a.time = t
    · rw [updateFirstByTime, if_pos ha] at h
      cases h; simp [hc, ha]
    · rcases hopt : updateFirstByTime t c rest with _ | r
      · rw [updateFirstByTime, if_neg ha, hopt] at h; cases h
      · rw [updateFirstByTime, if_neg ha, hopt] at h
        cases h
        simp [ih hopt]

/-- On a series with duplicate-free times, the replace scan at the time of
entry i rewrites it to List.set i. -/
theorem updateFirstByTime_eq_set {c : Candle} :
    ∀ {data : List Candle} {i : Nat} (hi : i < data.length),
      (data.map Candle.time).Nodup → (data.get ⟨i, hi⟩).time = c.time →
      updateFirstByTime c.time c data = some (data.set i c) := by
  intro data
  induction data with
  | nil => intro i hi; simp at hi
  | cons a rest ih =>
    intro i hi hnd hti
    match i with
    | 0 =>
      simp only [List.get] at hti
      simp [updateFirstByTime, hti]
    | Nat.succ j =>
      have hj : j < rest.length := by simpa using hi
      simp only [List.get] at hti
      rw [List.map_cons] at hnd
      have hnd1 : (rest.map Candle.time).Nodup := (List.nodup_cons.mp hnd).2
      have hamem : a.time ∉ rest.map Candle.time := (List.nodup_cons.mp hnd).1
      have hane : a.time ≠ c.time := by
        intro he
        apply hamem
        rw [he, ← hti]
        exact List.mem_map_of_mem Candle.time (rest.get_mem j hj)
      rw [updateFirstByTime, if_neg hane, ih hj hnd1 hti]
      simp [List.set]

/-! ## Lemmas about appendA (the list core of append_candle) -/

theorem truncIf_eq_dropToCap (cap : Nat) (l : List Candle) :
    (if cap < l.length then l.drop (l.length - cap) else l) = dropToCap cap l := by
  rw [dropToCap]
  by_cases h : cap < l.length
  · rw [if_pos h]
  · rw [if_neg h]
    have : l.length - cap = 0 := by omega
    rw [this, List.drop_zero]

theorem appendA_of_not_found {cap : Nat} {data : List Candle} {c : Candle}
    (h : c.time ∉ data.map Candle.time) :
    appendA cap data c = dropToCap cap (List.insertionSort leTime (data ++ [c])) := by
  rw [appendA, updateFirstByTime_eq_none.mpr h]
  exact truncIf_eq_dropToCap cap _

theorem appendA_of_found {cap : Nat} {data : List Candle} {c : Candle} {i : Nat}
    (hi : i < data.length) (hnd : (data.map Candle.time).Nodup)
    (hti : (data.get ⟨i, hi⟩).time = c.time) :
    appendA cap data c = data.set i c := by
  rw [appendA, updateFirstByTime_eq_set hi hnd hti]

theorem appendA_length_le {cap : Nat} {data : List Candle} {c : Candle}
    (h : data.length ≤ cap) : (appendA cap data c).length ≤ cap := by
  rcases hopt : updateFirstByTime c.time c data with _ | out
  · rw [appendA_of_not_found (updateFirstByTime_eq_none.mp hopt), dropToCap, List.length_drop]
    have hlen : (List.insertionSort leTime (data ++ [c])).length = data.length + 1 := by
      rw [List.length_insertionSort, List.length_append, List.length_cons, List.length_nil]
    omega
  · rw [appendA, hopt]
    show out.length ≤ cap
    have := updateFirstByTime_length hopt
    omega

theorem appendA_pairwise {cap : Nat} {data : List Candle} {c : Candle}
    (h : data.Pairwise ltTime) : (appendA cap data c).Pairwise ltTime := by
  by_cases hf : c.time ∈ data.map Candle.time
  · rw [appendA]
    rcases hopt : updateFirstByTime c.time c data with _ | out
    · exact absurd hf (updateFirstByTime_eq_none.mp hopt)
    · have hmap : out.map Candle.time = data.map Candle.time :=
        updateFirstByTime_map_time rfl hopt
      have hd : (data.map Candle.time).Pairwise (fun a b => a < b) :=
        List.pairwise_map.mpr h
      rw [← hmap] at hd
      exact pairwise_lt_of_le_nodup
        ((List.pairwise_map.mp hd).imp fun hab => le_of_lt hab)
        (by rw [hmap]; exact nodup_times_of_pairwise_lt h)
  · rw [appendA_of_not_found hf, dropToCap]
    have hnd : ((data ++ [c]).map Candle.time).Nodup := by
      rw [List.map_append]
      refine List.Nodup.append (nodup_times_of_pairwise_lt h) (List.nodup_singleton _) ?_
      intro x hx hy
      rw [List.map_singleton, List.mem_singleton] at hy
      exact hf (hy ▸ hx)
    exact (insertionSort_pairwise_lt hnd).sublist (List.drop_sublist _ _)

/-! ## The ordered-insert surgery lemmas behind FIFO eviction -/

theorem orderedInsert_append_of_le {c b : Candle} (B : List Candle) (hcb : leTime c b) :
    ∀ A : List Candle,
      List.orderedInsert leTime c (A ++ b :: B) = List.orderedInsert leTime c A ++ b :: B := by
  intro A
  induction A with
  | nil => simp [List.orderedInsert, hcb]
  | cons a A ih =>
    by_cases hca : leTime c a
    · simp [List.orderedInsert, hca]
    · simp only [List.cons_append, List.orderedInsert, if_neg hca, List.append_eq, ih]

theorem orderedInsert_append_of_forall_not {c : Candle} (B : List Candle) :
    ∀ A : List Candle, (∀ a ∈ A, ¬leTime c a) →
      List.orderedInsert leTime c (A ++ B) = A ++ List.orderedInsert leTime c B := by
  intro A
  induction A with
  | nil => simp
  | cons a A ih =>
    intro hA
    have hca : ¬leTime c a := hA a (List.mem_cons_self a A)
    simp only [List.cons_append, List.orderedInsert, if_neg hca, List.append_eq,
      ih (fun x hx => hA x (List.mem_cons_of_mem a hx))]

/-- Inserting into a sorted list that already lost its prefix to the cap
and re-capping agrees with inserting into the full sorted list and
re-capping: the kept suffix is the same. -/
theorem dropToCap_orderedInsert {cap : Nat} (hcap : 0 < cap) {L : List Candle} {c : Candle}
    (hL : L.Pairwise leTime) :
    dropToCap cap (List.orderedInsert leTime c (dropToCap cap L)) =
      dropToCap cap (List.orderedInsert leTime c L) := by
  by_cases hlen : L.length ≤ cap
  · have hDL : dropToCap cap L = L := by
      have h0 : L.length - cap = 0 := by omega
      rw [dropToCap, h0, List.drop_zero]
    rw [hDL]
  · obtain ⟨b, tail, hD⟩ : ∃ b tail, dropToCap cap L = b :: tail := by
      rcases hcase : dropToCap cap L with _ | ⟨x, xs⟩
      · exfalso
        have h1 := congrArg List.length hcase
        rw [dropToCap, List.length_drop] at h1
        simp at h1
        omega
      · exact ⟨x, xs, rfl⟩
    have htail_len : (b :: tail).length = cap := by
      have h1 := congrArg List.length hD
      rw [dropToCap, List.length_drop] at h1
      omega
    have hsplit : L.take (L.length - cap) ++ (b :: tail) = L := by
      rw [← hD, dropToCap, List.take_append_drop]
    have htklen : (L.take (L.length - cap)).length = L.length - cap := by
      rw [List.length_take]
      omega
    rw [hD]
    by_cases hcb : leTime c b
    · rw [List.orderedInsert_of_le _ _ hcb]
      have hLHS : dropToCap cap (c :: b :: tail) = b :: tail := by
        rw [dropToCap]
        have h2 : (c :: b :: tail).length - cap = 1 := by
          rw [List.length_cons, htail_len]
          omega
        rw [h2]
        rfl
      rw [hLHS]
      conv_rhs => rw [← hsplit]
      rw [orderedInsert_append_of_le (b := b) tail hcb]
      rw [dropToCap]
      have hlen2 : (List.orderedInsert leTime c (L.take (L.length - cap)) ++ b :: tail).length - cap
          = (List.orderedInsert leTime c (L.take (L.length - cap))).length := by
        rw [List.length_append, List.orderedInsert_length, htklen, htail_len]
        omega
      rw [hlen2, List.drop_left]
    · have hforall : ∀ a ∈ L.take (L.length - cap), ¬leTime c a := by
        intro a ha hle
        have hab : leTime a b := by
          have hp := hL
          rw [← hsplit] at hp
          rcases List.pairwise_append.mp hp with ⟨_, _, hcross⟩
          exact hcross a ha b (List.mem_cons_self b tail)
        exact hcb (le_trans hle hab)
      conv_rhs => rw [← hsplit]
      rw [orderedInsert_append_of_forall_not (b :: tail) (L.take (L.length - cap)) hforall]
      rw [dropToCap, dropToCap]
      have hlen3 : (L.take (L.length - cap) ++ List.orderedInsert leTime c (b :: tail)).length - cap
          = (L.take (L.length - cap)).length + 1 := by
        rw [List.length_append, List.orderedInsert_length, htail_len, htklen]
        omega
      rw [hlen3, List.drop_append_eq_append_drop]
      rw [@List.drop_eq_nil_of_le Candle (L.take (L.length - cap))
        ((L.take (L.length - cap)).length + 1) (by omega), List.nil_append]
      have hidx : (L.take (L.length - cap)).length + 1 - (L.take (L.length - cap)).length = 1 := by
        omega
      rw [hidx]
      have hlen4 : (List.orderedInsert leTime c (b :: tail)).length - cap = 1 := by
        rw [List.orderedInsert_length, htail_len]
        omega
      rw [hlen4]

theorem orderedInsert_pairwise_lt {s : List Candle} {c : Candle}
    (hs : s.Pairwise ltTime) (hf : c.time ∉ s.map Candle.time) :
    (List.orderedInsert leTime c s).Pairwise ltTime := by
  have hle : List.Sorted leTime (List.orderedInsert leTime c s) :=
    List.Sorted.orderedInsert c s (pairwise_le_of_lt hs)
  refine pairwise_lt_of_le_nodup hle ?_
  have hperm := (List.perm_orderedInsert leTime c s).map Candle.time
  refine hperm.nodup_iff.mpr ?_
  rw [List.map_cons]
  exact List.nodup_cons.mpr ⟨hf, nodup_times_of_pairwise_lt hs⟩

/-- Sorting a sorted list with one fresh element appended is an ordered
insert. -/
theorem insertionSort_append_singleton {s : List Candle} {c : Candle}
    (hs : s.Pairwise ltTime) (hf : c.time ∉ s.map Candle.time) :
    List.insertionSort leTime (s ++ [c]) = List.orderedInsert leTime c s := by
  apply insertionSort_eq_of_pairwise_lt
  · exact (List.perm_orderedInsert leTime c s).trans (List.perm_append_singleton c s).symm
  · exact orderedInsert_pairwise_lt hs hf

/-- FIFO characterization of any upsert sequence with fresh times into the
empty series: the store keeps exactly the cap largest-time candles (the
suffix of the sorted inserted list). -/
theorem foldl_appendA_eq {cap : Nat} (hcap : 0 < cap) :
    ∀ cs : List Candle, (cs.map Candle.time).Nodup →
      cs.foldl (appendA cap) [] = dropToCap cap (List.insertionSort leTime cs) := by
  intro cs
  induction cs using List.reverseRecOn with
  | nil => intro _; simp [dropToCap]
  | append_singleton cs c ih =>
    intro hnd
    rw [List.map_append] at hnd
    rcases List.nodup_append.mp hnd with ⟨hnd_cs, _, hdisj⟩
    have hfresh : c.time ∉ cs.map Candle.time := by
      intro hm
      exact hdisj hm (by rw [List.map_singleton]; exact List.mem_singleton_self _)
    have hL : (List.insertionSort leTime cs).Pairwise ltTime := insertionSort_pairwise_lt hnd_cs
    have hfreshL : c.time ∉ (List.insertionSort leTime cs).map Candle.time := by
      intro hm
      exact hfresh (((List.perm_insertionSort leTime cs).map Candle.time).mem_iff.mp hm)
    have hfreshD : c.time ∉ (dropToCap cap (List.insertionSort leTime cs)).map Candle.time := by
      intro hm
      exact hfreshL (((List.drop_sublist _ _).map Candle.time).subset hm)
    have hDsorted : (dropToCap cap (List.insertionSort leTime cs)).Pairwise ltTime :=
      List.Pairwise.sublist (List.drop_sublist _ _) hL
    rw [List.foldl_append, List.foldl_cons, List.foldl_nil, ih hnd_cs,
      appendA_of_not_found hfreshD, insertionSort_append_singleton hDsorted hfreshD,
      dropToCap_orderedInsert hcap (pairwise_le_of_lt hL)]
    have hRHS : List.insertionSort leTime (cs ++ [c])
        = List.orderedInsert leTime c (List.insertionSort leTime cs) := by
      apply insertionSort_eq_of_pairwise_lt
      · exact (List.perm_orderedInsert leTime c _).trans
          (((List.perm_insertionSort leTime cs).cons c).trans
            (List.perm_append_singleton c cs).symm)
      · exact orderedInsert_pairwise_lt hL hfreshL
    rw [hRHS]

/-- Appending a candle beyond the tail of a sorted under-capacity series
just appends it at the end. -/
theorem appendA_append_of_gt {cap : Nat} {data : List Candle} {c : Candle}
    (hs : data.Pairwise ltTime) (hgt : ∀ a ∈ data, a.time < c.time)
    (hlen : data.length < cap) : appendA cap data c = data ++ [c] := by
  have hf : c.time ∉ data.map Candle.time := by
    intro hm
    rcases List.mem_map.mp hm with ⟨a, ha, hae⟩
    exact absurd hae (ne_of_lt (hgt a ha))
  rw [appendA_of_not_found hf]
  have hsorted : (data ++ [c]).Pairwise ltTime := by
    rw [List.pairwise_append]
    refine ⟨hs, List.pairwise_singleton _ _, fun a ha b hb => ?_⟩
    rw [List.mem_singleton] at hb
    subst hb
    exact hgt a ha
  rw [insertionSort_eq_of_pairwise_lt (List.Perm.refl _) hsorted, dropToCap]
  have h0 : (data ++ [c]).length - cap = 0 := by
    rw [List.length_append, List.length_cons, List.length_nil]
    omega
  rw [h0, List.drop_zero]

/-! ## Store-level bridging lemmas -/

theorem append_candle_at_key (s : Store) (sym iv : String) (c : Candle) :
    (append_candle s sym iv c) (build_candle_key sym iv) =
      appendCandle (s (build_candle_key sym iv)) c := by
  simp [append_candle, storeSet]

theorem append_candle_other_key (s : Store) (sym iv : String) (c : Candle) (k : String)
    (hk : k ≠ build_candle_key sym iv) : (append_candle s sym iv c) k = s k := by
  simp [append_candle, storeSet, hk]

theorem foldl_append_candle_at_key (sym iv : String) :
    ∀ (cs : List Candle) (s : Store),
      (cs.foldl (fun st c => append_candle st sym iv c) s) (build_candle_key sym iv) =
        cs.foldl appendCandle (s (build_candle_key sym iv)) := by
  intro cs
  induction cs with
  | nil => intro s; rfl
  | cons c cs ih =>
    intro s
    rw [List.foldl_cons, List.foldl_cons, ih, append_candle_at_key]

theorem sliceLast_of_le {data : List Candle} {limit : Nat} (h : data.length ≤ limit) :
    sliceLast data limit = data := by
  rw [sliceLast, if_neg (by omega)]

/-! ## Registry lemmas -/

theorem mem_setAdd {α : Type} [DecidableEq α] {x a : α} {l : List α} :
    a ∈ setAdd x l ↔ a = x ∨ a ∈ l := by
  rw [setAdd]
  by_cases h : x ∈ l
  · rw [if_pos h]
    constructor
    · exact Or.inr
    · rintro (rfl | ha)
      · exact h
      · exact ha
  · rw [if_neg h, List.mem_append, List.mem_singleton]
    exact or_comm

theorem setAdd_nodup {α : Type} [DecidableEq α] {x : α} {l : List α} (h : l.Nodup) :
    (setAdd x l).Nodup := by
  rw [setAdd]
  by_cases hm : x ∈ l
  · rw [if_pos hm]
    exact h
  · rw [if_neg hm]
    refine List.nodup_append.mpr ⟨h, List.nodup_singleton x, ?_⟩
    intro a ha hax
    rw [List.mem_singleton] at hax
    exact hm (hax ▸ ha)

theorem subscribe_subscribers_mem {r : Registry} {ws : Conn} {sym iv : String}
    {c : Conn} {k : SKey} :
    c ∈ (subscribe r ws sym iv).subscribers k ↔
      (k = norm_key sym iv ∧ c = ws) ∨ c ∈ r.subscribers k := by
  by_cases hk : k = norm_key sym iv
  · simp [subscribe, hk, mem_setAdd]
  · simp [subscribe, hk]

theorem subscribe_connSubs_mem {r : Registry} {ws : Conn} {sym iv : String}
    {c : Conn} {k : SKey} :
    k ∈ (subscribe r ws sym iv).connSubs c ↔
      (c = ws ∧ k = norm_key sym iv) ∨ k ∈ r.connSubs c := by
  by_cases hc : c = ws
  · simp [subscribe, hc, mem_setAdd]
  · simp [subscribe, hc]

theorem subscribe_RegInv {r : Registry} {ws : Conn} {sym iv : String} (h : RegInv r) :
    RegInv (subscribe r ws sym iv) := by
  obtain ⟨hf, hb, hns, hnc⟩ := h
  refine ⟨?_, ?_, ?_, ?_⟩
  · intro c k hm
    rcases subscribe_subscribers_mem.mp hm with ⟨hk, hc⟩ | hm2
    · exact subscribe_connSubs_mem.mpr (Or.inl ⟨hc, hk⟩)
    · exact subscribe_connSubs_mem.mpr (Or.inr (hf c k hm2))
  · intro c k hm
    rcases subscribe_connSubs_mem.mp hm with ⟨hc, hk⟩ | hm2
    · exact subscribe_subscribers_mem.mpr (Or.inl ⟨hk, hc⟩)
    · exact subscribe_subscribers_mem.mpr (Or.inr (hb c k hm2))
  · intro k
    by_cases hk : k = norm_key sym iv
    · simpa [subscribe, hk] using setAdd_nodup (hns k)
    · simpa [subscribe, hk] using hns k
  · intro c
    by_cases hc : c = ws
    · simpa [subscribe, hc] using setAdd_nodup (hnc c)
    · simpa [subscribe, hc] using hnc c

theorem unsubscribe_RegInv {r : Registry} {ws : Conn} {sym iv : String} (h : RegInv r) :
    RegInv (unsubscribe r ws sym iv) := by
  obtain ⟨hf, hb, hns, hnc⟩ := h
  have hsubm : ∀ (c : Conn) (k : SKey),
      c ∈ (unsubscribe r ws sym iv).subscribers k ↔
        c ∈ r.subscribers k ∧ ¬(k = norm_key sym iv ∧ c = ws) := by
    intro c k
    by_cases hk : k = norm_key sym iv
    · simp only [unsubscribe, hk]
      rw [if_pos trivial, (hns (norm_key sym iv)).mem_erase_iff]
      constructor
      · rintro ⟨hcw, hcm⟩
        exact ⟨hcm, fun hand => hcw hand.2⟩
      · rintro ⟨hcm, hno⟩
        exact ⟨fun hcw => hno ⟨trivial, hcw⟩, hcm⟩
    · simp [unsubscribe, hk]
  have hconm : ∀ (c : Conn) (k : SKey),
      k ∈ (unsubscribe r ws sym iv).connSubs c ↔
        k ∈ r.connSubs c ∧ ¬(k = norm_key sym iv ∧ c = ws) := by
    intro c k
    by_cases hc : c = ws
    · simp only [unsubscribe, hc]
      rw [if_pos trivial, (hnc ws).mem_erase_iff]
      constructor
      · rintro ⟨hkk, hkm⟩
        exact ⟨hkm, fun hand => hkk hand.1⟩
      · rintro ⟨hkm, hno⟩
        exact ⟨fun hkk => hno ⟨hkk, trivial⟩, hkm⟩
    · simp [unsubscribe, hc]
  refine ⟨?_, ?_, ?_, ?_⟩
  · intro c k hm
    rcases (hsubm c k).mp hm with ⟨hcm, hno⟩
    exact (hconm c k).mpr ⟨hf c k hcm, hno⟩
  · intro c k hm
    rcases (hconm c k).mp hm with ⟨hkm, hno⟩
    exact (hsubm c k).mpr ⟨hb c k hkm, hno⟩
  · intro k
    by_cases hk : k = norm_key sym iv
    · simpa [unsubscribe, hk] using (hns k).erase ws
    · simpa [unsubscribe, hk] using hns k
  · intro c
    by_cases hc : c = ws
    · simpa [unsubscribe, hc] using (hnc c).erase (norm_key sym iv)
    · simpa [unsubscribe, hc] using hnc c

/-- Membership in the subscriber map after set_subscriptions, needing only
the forward inclusion and set-nodup facts about the previous state. -/
theorem set_subscriptions_subscribers_mem {r : Registry} {ws : Conn}
    {subs : List (String × String)} {c : Conn} {k : SKey}
    (hfwd : ∀ k2, ws ∈ r.subscribers k2 → k2 ∈ r.connSubs ws)
    (hns : ∀ k2, (r.subscribers k2).Nodup) :
    c ∈ (set_subscriptions r ws subs).subscribers k ↔
      (if c = ws then k ∈ subs.map (fun p => norm_key p.1 p.2) else c ∈ r.subscribers k) := by
  by_cases hc : c = ws
  · subst hc
    rw [if_pos rfl]
    by_cases hk : k ∈ subs.map (fun p => norm_key p.1 p.2)
    · simp only [set_subscriptions, if_pos hk, mem_setAdd]
      simp [hk]
    · simp only [set_subscriptions, if_neg hk]
      by_cases hold : k ∈ r.connSubs c
      · simp only [if_pos hold, (hns k).mem_erase_iff]
        simp [hk]
      · simp only [if_neg hold]
        constructor
        · intro hm
          exact absurd (hfwd k hm) hold
        · intro hm
          exact absurd hm hk
  · rw [if_neg hc]
    by_cases hk : k ∈ subs.map (fun p => norm_key p.1 p.2)
    · simp only [set_subscriptions, if_pos hk, mem_setAdd]
      by_cases hold : k ∈ r.connSubs ws
      · simp [hc, hold, List.mem_erase_of_ne hc]
      · simp [hc, hold]
    · simp only [set_subscriptions, if_neg hk]
      by_cases hold : k ∈ r.connSubs ws
      · simp [hold, List.mem_erase_of_ne hc]
      · simp [hold]

theorem set_subscriptions_connSubs {r : Registry} {ws : Conn}
    {subs : List (String × String)} {c : Conn} :
    (set_subscriptions r ws subs).connSubs c =
      (if c = ws then (subs.map (fun p => norm_key p.1 p.2)).dedup else r.connSubs c) := by
  by_cases hc : c = ws
  · simp [set_subscriptions, hc]
  · simp [set_subscriptions, hc]

theorem set_subscriptions_RegInv {r : Registry} {ws : Conn}
    {subs : List (String × String)} (h : RegInv r) :
    RegInv (set_subscriptions r ws subs) := by
  obtain ⟨hf, hb, hns, hnc⟩ := h
  have hfwd : ∀ k2, ws ∈ r.subscribers k2 → k2 ∈ r.connSubs ws := fun k2 => hf ws k2
  refine ⟨?_, ?_, ?_, ?_⟩
  · intro c k hm
    rw [set_subscriptions_connSubs]
    rw [set_subscriptions_subscribers_mem hfwd hns] at hm
    by_cases hc : c = ws
    · rw [if_pos hc]
      rw [if_pos hc] at hm
      exact List.mem_dedup.mpr hm
    · rw [if_neg hc]
      rw [if_neg hc] at hm
      exact hf c k hm
  · intro c k hm
    rw [set_subscriptions_connSubs] at hm
    rw [set_subscriptions_subscribers_mem hfwd hns]
    by_cases hc : c = ws
    · rw [if_pos hc]
      rw [if_pos hc] at hm
      exact List.mem_dedup.mp hm
    · rw [if_neg hc]
      rw [if_neg hc] at hm
      exact hb c k hm
  · intro k
    have hcl : (if k ∈ r.connSubs ws then (r.subscribers k).erase ws else r.subscribers k).Nodup := by
      by_cases hold : k ∈ r.connSubs ws
      · simpa [hold] using (hns k).erase ws
      · simpa [hold] using hns k
    by_cases hk : k ∈ subs.map (fun p => norm_key p.1 p.2)
    · simpa [set_subscriptions, hk] using setAdd_nodup hcl
    · simpa [set_subscriptions, hk] using hcl
  · intro c
    rw [set_subscriptions_connSubs]
    by_cases hc : c = ws
    · simp [hc, List.nodup_dedup]
    · simp [hc, hnc c]

theorem unsubscribe_all_RegInv {r : Registry} {ws : Conn} (h : RegInv r) :
    RegInv (unsubscribe_all r ws) := by
  obtain ⟨hf, hb, hns, hnc⟩ := h
  have hsubm : ∀ (c : Conn) (k : SKey),
      c ∈ (unsubscribe_all r ws).subscribers k ↔ c ∈ r.subscribers k ∧ c ≠ ws := by
    intro c k
    show c ∈ (if k ∈ r.connSubs ws then (r.subscribers k).erase ws else r.subscribers k) ↔ _
    by_cases hold : k ∈ r.connSubs ws
    · rw [if_pos hold, (hns k).mem_erase_iff]
      exact and_comm
    · rw [if_neg hold]
      constructor
      · intro hm
        refine ⟨hm, ?_⟩
        rintro rfl
        exact hold (hf c k hm)
      · exact And.left
  refine ⟨?_, ?_, ?_, ?_⟩
  · intro c k hm
    rcases (hsubm c k).mp hm with ⟨hcm, hcw⟩
    show k ∈ (if c = ws then [] else r.connSubs c)
    rw [if_neg hcw]
    exact hf c k hcm
  · intro c k hm
    by_cases hc : c = ws
    · rw [show (unsubscribe_all r ws).connSubs c = [] from by simp [unsubscribe_all, hc]] at hm
      cases hm
    · have hkm : k ∈ r.connSubs c := by simpa [unsubscribe_all, hc] using hm
      exact (hsubm c k).mpr ⟨hb c k hkm, hc⟩
  · intro k
    show (if k ∈ r.connSubs ws then (r.subscribers k).erase ws else r.subscribers k).Nodup
    by_cases hold : k ∈ r.connSubs ws
    · rw [if_pos hold]
      exact (hns k).erase ws
    · rw [if_neg hold]
      exact hns k
  · intro c
    by_cases hc : c = ws
    · simp [unsubscribe_all, hc]
    · simpa [unsubscribe_all, hc] using hnc c

theorem foldl_erase_eq_filter {α : Type} [DecidableEq α] :
    ∀ (ds l : List α), l.Nodup →
      ds.foldl (fun s w => s.erase w) l = l.filter (fun w => w ∉ ds) := by
  intro ds
  induction ds with
  | nil =>
    intro l _
    simp
  | cons d ds ih =>
    intro l hl
    rw [List.foldl_cons, ih (l.erase d) (hl.erase d)]
    rw [hl.erase_eq_filter d, List.filter_filter]
    apply List.filter_congr
    intro x hx
    by_cases hxd : x = d
    · simp [hxd]
    · simp [hxd]

theorem broadcast_candle_attempts (fails : Conn → Bool) (r : Registry) (sym iv : String)
    (candle : Candle) :
    (broadcast_candle fails r sym iv candle).1 =
      (r.subscribers (norm_key sym iv)).map
        (fun ws => (ws, { symbol := (norm_key sym iv).1, interval := (norm_key sym iv).2,
                          candle := candle : Msg })) := rfl

theorem broadcast_candle_subscribers_at_key (fails : Conn → Bool) (r : Registry)
    (sym iv : String) (candle : Candle)
    (hnd : (r.subscribers (norm_key sym iv)).Nodup) :
    ((broadcast_candle fails r sym iv candle).2).subscribers (norm_key sym iv) =
      (r.subscribers (norm_key sym iv)).filter (fun w => !(fails w)) := by
  by_cases hd : (r.subscribers (norm_key sym iv)).filter (fun w => fails w) = []
  · have h1 : (broadcast_candle fails r sym iv candle).2 = r := by
      simp [broadcast_candle, hd]
    rw [h1]
    symm
    apply List.filter_eq_self.mpr
    intro a ha
    have hnot := List.filter_eq_nil_iff.mp hd a ha
    simp only [Bool.not_eq_true'] at hnot ⊢
    simpa using hnot
  · have h1 : ((broadcast_candle fails r sym iv candle).2).subscribers (norm_key sym iv) =
        ((r.subscribers (norm_key sym iv)).filter (fun w => fails w)).foldl
          (fun s w => s.erase w) (r.subscribers (norm_key sym iv)) := by
      simp [broadcast_candle, hd]
    rw [h1, foldl_erase_eq_filter _ _ hnd]
    apply List.filter_congr
    intro x hx
    by_cases hfx : fails x
    · simp [List.mem_filter, hx, hfx]
    · simp [List.mem_filter, hfx]

theorem broadcast_candle_subscribers_other (fails : Conn → Bool) (r : Registry)
    (sym iv : String) (candle : Candle) (k : SKey) (hk : k ≠ norm_key sym iv) :
    ((broadcast_candle fails r sym iv candle).2).subscribers k = r.subscribers k := by
  by_cases hd : (r.subscribers (norm_key sym iv)).filter (fun w => fails w) = []
  · simp [broadcast_candle, hd]
  · simp [broadcast_candle, hd, hk]

theorem broadcast_candle_connSubs (fails : Conn → Bool) (r : Registry)
    (sym iv : String) (candle : Candle) :
    ((broadcast_candle fails r sym iv candle).2).connSubs = r.connSubs := by
  by_cases hd : (r.subscribers (norm_key sym iv)).filter (fun w => fails w) = []
  · simp [broadcast_candle, hd]
  · simp [broadcast_candle, hd]

theorem broadcast_candle_fwd_nodup {fails : Conn → Bool} {r : Registry}
    {sym iv : String} {candle : Candle}
    (hfwd : RegInvFwd r) (hns : ∀ k, (r.subscribers k).Nodup) :
    RegInvFwd ((broadcast_candle fails r sym iv candle).2) ∧
      ∀ k, (((broadcast_candle fails r sym iv candle).2).subscribers k).Nodup := by
  constructor
  · intro c k hm
    rw [broadcast_candle_connSubs]
    apply hfwd
    by_cases hk : k = norm_key sym iv
    · subst hk
      rw [broadcast_candle_subscribers_at_key _ _ _ _ _ (hns _)] at hm
      exact (List.mem_filter.mp hm).1
    · rwa [broadcast_candle_subscribers_other _ _ _ _ _ _ hk] at hm
  · intro k
    by_cases hk : k = norm_key sym iv
    · subst hk
      rw [broadcast_candle_subscribers_at_key _ _ _ _ _ (hns _)]
      exact (hns _).filter _
    · rw [broadcast_candle_subscribers_other _ _ _ _ _ _ hk]
      exact hns k

/-! ## Lemmas about the kline parse loop -/

theorem parseKlineRows_cons_err {k : JVal} {rest : List JVal} {e : PyErr}
    (hk : parseKlineRow k = .error e) : parseKlineRows (k :: rest) = .error e := by
  show (parseKlineRow k >>= fun c =>
    parseKlineRows rest >>= fun cs => pure (c :: cs)) = Except.error e
  rw [hk]
  rfl

theorem parseKlineRows_cons_ok {k : JVal} {rest : List JVal} {c : Candle}
    (hk : parseKlineRow k = .ok c) :
    parseKlineRows (k :: rest) = (parseKlineRows rest >>= fun cs => pure (c :: cs)) := by
  show (parseKlineRow k >>= fun c =>
    parseKlineRows rest >>= fun cs => pure (c :: cs)) = _
  rw [hk]
  rfl

theorem parseKlineRows_error_iff :
    ∀ rows : List JVal,
      (∃ e, parseKlineRows rows = .error e) ↔ ∃ k ∈ rows, ∃ e, parseKlineRow k = .error e := by
  intro rows
  induction rows with
  | nil =>
    constructor
    · rintro ⟨e, he⟩
      cases he
    · rintro ⟨k, hk, _⟩
      cases hk
  | cons k rest ih =>
    rcases hk : parseKlineRow k with e | c
    · constructor
      · intro _
        exact ⟨k, List.mem_cons_self k rest, e, hk⟩
      · intro _
        exact ⟨e, parseKlineRows_cons_err hk⟩
    · rw [parseKlineRows_cons_ok hk]
      constructor
      · rintro ⟨e2, he2⟩
        rcases hrest : parseKlineRows rest with e3 | cs
        · obtain ⟨k2, hmem, hke⟩ := ih.mp ⟨e3, hrest⟩
          exact ⟨k2, List.mem_cons_of_mem k hmem, hke⟩
        · rw [hrest] at he2
          cases he2
      · rintro ⟨k2, hmem, e2, hke⟩
        rcases List.mem_cons.mp hmem with rfl | hmem2
        · rw [hke] at hk
          cases hk
        · obtain ⟨e3, h3⟩ := ih.mpr ⟨k2, hmem2, e2, hke⟩
          refine ⟨e3, ?_⟩
          rw [h3]
          rfl

/-! ## Ingest-step lemmas -/

theorem time_le_getLast {l : List Candle} (hl : l.Pairwise ltTime) (hne : l ≠ []) :
    ∀ a ∈ l, a.time ≤ (l.getLast hne).time := by
  induction l with
  | nil => cases hne rfl
  | cons x xs ih =>
    intro a ha
    rcases List.mem_cons.mp ha with rfl | hmem
    · by_cases hxs : xs = []
      · subst hxs
        exact le_of_eq rfl
      · rw [List.getLast_cons hxs]
        exact le_of_lt ((List.pairwise_cons.mp hl).1 _ (List.getLast_mem hxs))
    · have hxs : xs ≠ [] := List.ne_nil_of_mem hmem
      rw [List.getLast_cons hxs]
      exact ih (List.pairwise_cons.mp hl).2 hxs a hmem

/-- The reconcile-and-write block on a key whose series is already
populated (within capacity): no bootstrap happens, the gap request is
computed from the series tail, the fetched candles are upserted in order,
and the triggering candle is upserted last. -/
theorem ingestStep_nonempty {boot : List Candle} {fetch : Int → Int → List Candle}
    {store : Store} {sym iv : String} {candle : Candle}
    (hne : store (build_candle_key sym iv) ≠ [])
    (hlen : (store (build_candle_key sym iv)).length ≤ 1000) :
    (ingestStep boot fetch store sym iv candle) (build_candle_key sym iv) =
      appendCandle
        ((match gapRequestRange (interval_seconds iv)
            (((store (build_candle_key sym iv)).getLast hne).time) candle.time with
          | some range => fetch range.1 range.2
          | none => []).foldl appendCandle (store (build_candle_key sym iv)))
        candle := by
  have hslice : get_candles store sym iv 1000 = store (build_candle_key sym iv) := by
    rw [get_candles, sliceLast_of_le hlen]
  rw [ingestStep]
  simp only [hslice, if_neg hne]
  rw [List.getLast?_eq_getLast _ hne, append_candle_at_key]
  rcases hreq : gapRequestRange (interval_seconds iv)
      ((store (build_candle_key sym iv)).getLast hne).time candle.time with _ | range
  · simp only [hreq, List.foldl_nil]
  · simp only [hreq]
    rw [foldl_append_candle_at_key]

theorem foldl_appendCandle_pairwise :
    ∀ (cs l : List Candle), l.Pairwise ltTime → (cs.foldl appendCandle l).Pairwise ltTime := by
  intro cs
  induction cs with
  | nil => intro l h; exact h
  | cons c cs ih =>
    intro l h
    exact ih _ (appendA_pairwise h)

theorem foldl_appendCandle_length :
    ∀ (cs l : List Candle), l.length ≤ BUFFER_SIZE →
      (cs.foldl appendCandle l).length ≤ BUFFER_SIZE := by
  intro cs
  induction cs with
  | nil => intro l h; exact h
  | cons c cs ih =>
    intro l h
    exact ih _ (appendA_length_le h)

/-! ## The claims -/

/-- C10: normalize_interval maps a missing (None) or empty interval argument
to "1m", so every store key and subscription key built with a missing
interval silently targets the 1-minute series; a non-empty interval is
returned as the lowercased (stripped) token, with "1D" mapped to "1d". -/
theorem C10_interval_default :
    normalize_intervalOpt none = "1m" ∧
    normalize_interval "" = "1m" ∧
    (∀ sym : Option String, build_candle_keyOpt sym none = build_candle_keyOpt sym (some "1m")) ∧
    (∀ sym : String, build_candle_key sym "" = build_candle_key sym "1m") ∧
    (∀ sym : String, norm_key sym "" = norm_key sym "1m") ∧
    (∀ s : String, s ≠ "" →
      normalize_interval s =
        if upperStr (stripStr s) = "1D" then "1d" else lowerStr (stripStr s)) := by
  refine ⟨rfl, rfl, fun sym => rfl, fun sym => rfl, fun sym => rfl, fun s hs => ?_⟩
  rw [normalize_interval, if_neg hs]

theorem C10_interval_default_witness :
    normalize_interval "1D" =
      (if upperStr (stripStr "1D") = "1D" then "1d" else lowerStr (stripStr "1D")) :=
  C10_interval_default.2.2.2.2.2 "1D" (by decide)

/-- C2: starting from a series whose times are strictly increasing (hence
unique), any finite sequence of append_candle upserts leaves the stored
series with strictly increasing, unique times. -/
theorem C2_series_ordering (s : Store) (sym iv : String) (cs : List Candle)
    (h : (s (build_candle_key sym iv)).Pairwise ltTime) :
    ((cs.foldl (fun st c => append_candle st sym iv c) s)
        (build_candle_key sym iv)).Pairwise ltTime ∧
    (((cs.foldl (fun st c => append_candle st sym iv c) s)
        (build_candle_key sym iv)).map Candle.time).Nodup := by
  rw [foldl_append_candle_at_key]
  have hp := foldl_appendCandle_pairwise cs _ h
  exact ⟨hp, nodup_times_of_pairwise_lt hp⟩

theorem C2_series_ordering_witness :
    ((([mkC 3, mkC 1, mkC 2].foldl (fun st c => append_candle st "BTCUSDT" "1m" c) emptyStore)
        (build_candle_key "BTCUSDT" "1m")).Pairwise ltTime) ∧
    ((([mkC 3, mkC 1, mkC 2].foldl (fun st c => append_candle st "BTCUSDT" "1m" c) emptyStore)
        (build_candle_key "BTCUSDT" "1m")).map Candle.time).Nodup :=
  C2_series_ordering emptyStore "BTCUSDT" "1m" [mkC 3, mkC 1, mkC 2] (by decide)

/-- C3: the stored series length never exceeds BUFFER_SIZE = 1000, and
upserting BUFFER_SIZE + k candles with pairwise distinct times into an
empty series (in any order) leaves exactly the 1000 largest-time candles —
the k smallest-time candles, the first k of the time-sorted insertion list,
are the ones evicted. -/
theorem C3_capacity_fifo :
    (∀ (s : Store) (sym iv : String) (cs : List Candle),
      (s (build_candle_key sym iv)).length ≤ BUFFER_SIZE →
      ((cs.foldl (fun st c => append_candle st sym iv c) s)
          (build_candle_key sym iv)).length ≤ BUFFER_SIZE) ∧
    (∀ (cs : List Candle) (k : Nat), (cs.map Candle.time).Nodup →
      cs.length = BUFFER_SIZE + k →
      cs.foldl appendCandle [] = (List.insertionSort leTime cs).drop k ∧
      (cs.foldl appendCandle []).length = BUFFER_SIZE) := by
  constructor
  · intro s sym iv cs h
    rw [foldl_append_candle_at_key]
    exact foldl_appendCandle_length cs _ h
  · intro cs k hnd hlen
    have hfold : cs.foldl appendCandle [] = cs.foldl (appendA BUFFER_SIZE) [] := rfl
    have heq := @foldl_appendA_eq BUFFER_SIZE (by rw [BUFFER_SIZE]; omega) cs hnd
    have hslen : (List.insertionSort leTime cs).length = BUFFER_SIZE + k := by
      rw [List.length_insertionSort, hlen]
    have hidx : (List.insertionSort leTime cs).length - BUFFER_SIZE = k := by
      rw [hslen]
      omega
    constructor
    · rw [hfold, heq, dropToCap, hidx]
    · rw [hfold, heq, dropToCap, hidx, List.length_drop, hslen]
      omega

theorem C3_capacity_fifo_witness :
    (([mkC 5].foldl (fun st c => append_candle st "BTCUSDT" "1m" c) emptyStore)
        (build_candle_key "BTCUSDT" "1m")).length ≤ BUFFER_SIZE ∧
    ((List.range 1001).map (fun i => mkC (Int.ofNat i))).foldl appendCandle []
        = (List.insertionSort leTime
            ((List.range 1001).map (fun i => mkC (Int.ofNat i)))).drop 1 ∧
    (((List.range 1001).map (fun i => mkC (Int.ofNat i))).foldl appendCandle []).length
        = BUFFER_SIZE := by
  constructor
  · exact C3_capacity_fifo.1 emptyStore "BTCUSDT" "1m" [mkC 5] (by decide)
  · refine C3_capacity_fifo.2 ((List.range 1001).map (fun i => mkC (Int.ofNat i))) 1 ?_ ?_
    · rw [List.map_map]
      exact List.Nodup.map (fun a b hab => Int.ofNat.inj hab) (List.nodup_range 1001)
    · rw [List.length_map, List.length_range]
      rfl

/-- C4: upserting a candle whose time equals the time of entry i of a
duplicate-free series replaces exactly that entry in place — the result is
List.set i, so the length and every other position are unchanged and no
re-sort or eviction happens on this path. -/
theorem C4_in_place_replacement (s : Store) (sym iv : String) (c : Candle) (i : Nat)
    (hi : i < (s (build_candle_key sym iv)).length)
    (hnd : ((s (build_candle_key sym iv)).map Candle.time).Nodup)
    (ht : ((s (build_candle_key sym iv)).get ⟨i, hi⟩).time = c.time) :
    (append_candle s sym iv c) (build_candle_key sym iv)
      = (s (build_candle_key sym iv)).set i c ∧
    ((s (build_candle_key sym iv)).set i c).length = (s (build_candle_key sym iv)).length ∧
    (∀ j : Nat, j ≠ i →
      ((s (build_candle_key sym iv)).set i c)[j]? = (s (build_candle_key sym iv))[j]?) := by
  refine ⟨?_, List.length_set _ _ _, ?_⟩
  · rw [append_candle_at_key]
    exact appendA_of_found hi hnd ht
  · intro j hj
    exact List.getElem?_set_ne (fun he => hj he.symm)

theorem pairwise_append_singleton_time {data : List Candle} {c : Candle}
    (hs : data.Pairwise ltTime) (hgt : ∀ a ∈ data, a.time < c.time) :
    (data ++ [c]).Pairwise ltTime := by
  rw [List.pairwise_append]
  refine ⟨hs, List.pairwise_singleton _ _, fun a ha b hb => ?_⟩
  rw [List.mem_singleton] at hb
  subst hb
  exact hgt a ha

theorem appendCandle_append_of_gt {data : List Candle} {c : Candle}
    (hs : data.Pairwise ltTime) (hgt : ∀ a ∈ data, a.time < c.time)
    (hlen : data.length < BUFFER_SIZE) : appendCandle data c = data ++ [c] :=
  appendA_append_of_gt hs hgt hlen

theorem C4_in_place_replacement_witness :
    (append_candle (storeSet emptyStore (build_candle_key "BTCUSDT" "1m") [mkC 10, mkC 20])
        "BTCUSDT" "1m" { time := 20, op := 7, hi := 8, lo := 6, cl := 7, vol := 1 })
        (build_candle_key "BTCUSDT" "1m")
      = ((storeSet emptyStore (build_candle_key "BTCUSDT" "1m") [mkC 10, mkC 20])
          (build_candle_key "BTCUSDT" "1m")).set 1
            { time := 20, op := 7, hi := 8, lo := 6, cl := 7, vol := 1 } ∧
    (((storeSet emptyStore (build_candle_key "BTCUSDT" "1m") [mkC 10, mkC 20])
        (build_candle_key "BTCUSDT" "1m")).set 1
          { time := 20, op := 7, hi := 8, lo := 6, cl := 7, vol := 1 }).length
      = ((storeSet emptyStore (build_candle_key "BTCUSDT" "1m") [mkC 10, mkC 20])
          (build_candle_key "BTCUSDT" "1m")).length ∧
    (∀ j : Nat, j ≠ 1 →
      (((storeSet emptyStore (build_candle_key "BTCUSDT" "1m") [mkC 10, mkC 20])
          (build_candle_key "BTCUSDT" "1m")).set 1
            { time := 20, op := 7, hi := 8, lo := 6, cl := 7, vol := 1 })[j]?
        = ((storeSet emptyStore (build_candle_key "BTCUSDT" "1m") [mkC 10, mkC 20])
            (build_candle_key "BTCUSDT" "1m"))[j]?) :=
  C4_in_place_replacement
    (storeSet emptyStore (build_candle_key "BTCUSDT" "1m") [mkC 10, mkC 20])
    "BTCUSDT" "1m" { time := 20, op := 7, hi := 8, lo := 6, cl := 7, vol := 1 } 1
    (by decide) (by decide) (by decide)

/-- C6 as stated is violated at limit = 0: with a one-candle stored series,
get_candles returns the entire series (the Python slice data[-0:] is the
whole list), not min(0, 1) = 0 candles. -/
theorem C6_counterexample :
    get_candles (fun _ => [mkC 100]) "BTCUSDT" "1m" 0 = [mkC 100] ∧
    min 0 [mkC 100].length = 0 :=
  ⟨rfl, rfl⟩

/-- C6 amended: reading an absent key yields the empty list; for every
limit ≥ 1 the read returns exactly the most recent min(limit, len) candles
— the suffix of the series past length − limit — in ascending time order.
(At limit = 0 the code returns the whole series instead, see the
counterexample.) -/
theorem C6_read_slice_amended :
    (∀ (sym iv : String) (limit : Nat), get_candles emptyStore sym iv limit = []) ∧
    (∀ (s : Store) (sym iv : String) (limit : Nat), 1 ≤ limit →
      (s (build_candle_key sym iv)).Pairwise ltTime →
      get_candles s sym iv limit
          = (s (build_candle_key sym iv)).drop ((s (build_candle_key sym iv)).length - limit) ∧
      (get_candles s sym iv limit).length = min limit (s (build_candle_key sym iv)).length ∧
      (get_candles s sym iv limit).Pairwise ltTime ∧
      (get_candles s sym iv limit) <:+ (s (build_candle_key sym iv))) := by
  constructor
  · intro sym iv limit
    show sliceLast [] limit = []
    rw [sliceLast]
    simp
  · intro s sym iv limit hl hp
    have heq : get_candles s sym iv limit
        = (s (build_candle_key sym iv)).drop ((s (build_candle_key sym iv)).length - limit) := by
      rw [get_candles, sliceLast]
      by_cases hlen : limit < (s (build_candle_key sym iv)).length
      · rw [if_pos hlen, if_neg (by omega)]
      · rw [if_neg hlen]
        have h0 : (s (build_candle_key sym iv)).length - limit = 0 := by omega
        rw [h0, List.drop_zero]
    refine ⟨heq, ?_, ?_, ?_⟩
    · rw [heq, List.length_drop]
      omega
    · rw [heq]
      exact List.Pairwise.sublist (List.drop_sublist _ _) hp
    · rw [heq]
      exact List.drop_suffix _ _

theorem C6_read_slice_amended_witness :
    get_candles emptyStore "BTCUSDT" "1m" 7 = [] ∧
    (get_candles (fun _ => [mkC 1, mkC 2, mkC 3]) "BTCUSDT" "1m" 2
        = [mkC 1, mkC 2, mkC 3].drop ([mkC 1, mkC 2, mkC 3].length - 2) ∧
      (get_candles (fun _ => [mkC 1, mkC 2, mkC 3]) "BTCUSDT" "1m" 2).length
        = min 2 [mkC 1, mkC 2, mkC 3].length ∧
      (get_candles (fun _ => [mkC 1, mkC 2, mkC 3]) "BTCUSDT" "1m" 2).Pairwise ltTime ∧
      (get_candles (fun _ => [mkC 1, mkC 2, mkC 3]) "BTCUSDT" "1m" 2)
        <:+ [mkC 1, mkC 2, mkC 3]) :=
  ⟨C6_read_slice_amended.1 "BTCUSDT" "1m" 7,
   C6_read_slice_amended.2 (fun _ => [mkC 1, mkC 2, mkC 3]) "BTCUSDT" "1m" 2
     (by decide) (by decide)⟩

/-- C5 as stated is violated: when the HTTP body decodes successfully but a
row is not in the expected fixed-position numeric-array shape, the parse
loop (which runs after the try/except block) raises a TypeError to the
caller of fetch_klines_range, and bootstrap_symbol_interval likewise,
instead of returning an empty list / returning without writing. -/
theorem C5_counterexample :
    fetch_klines_range (.ok [JVal.jstr "x"]) = .error .typeError ∧
    bootstrap_symbol_interval (.ok [JVal.jstr "x"]) emptyStore "BTCUSDT" "1m"
      = .error .typeError :=
  ⟨rfl, rfl⟩

/-- C5 amended: transport/JSON-decode failures are caught — fetch returns
the empty list and bootstrap returns leaving the store unchanged — but the
row parse loop runs outside the try block: fetch raises exactly when some
row fails to parse, and when every row parses the candles are returned
(and bootstrap writes them via set_candles). -/
theorem C5_backfill_error_handling_amended :
    (∀ e, fetch_klines_range (.error e) = .ok []) ∧
    (∀ (e : TransportErr) (store : Store) (sym iv : String),
      bootstrap_symbol_interval (.error e) store sym iv = .ok store) ∧
    (∀ rows : List JVal,
      (∃ e, fetch_klines_range (.ok rows) = .error e) ↔
        ∃ k ∈ rows, ∃ e, parseKlineRow k = .error e) ∧
    (∀ (rows : List JVal) (cs : List Candle), parseKlineRows rows = .ok cs →
      fetch_klines_range (.ok rows) = .ok cs ∧
      ∀ (store : Store) (sym iv : String),
        bootstrap_symbol_interval (.ok rows) store sym iv
          = .ok (set_candles store sym iv cs)) := by
  refine ⟨fun e => rfl, fun e store sym iv => rfl,
    fun rows => parseKlineRows_error_iff rows, ?_⟩
  intro rows cs h
  constructor
  · exact h
  · intro store sym iv
    show (parseKlineRows rows >>= fun candles =>
      pure (set_candles store sym iv candles)) = _
    rw [h]
    rfl

theorem C5_backfill_error_handling_amended_witness :
    fetch_klines_range (.error .httpError) = .ok [] ∧
    bootstrap_symbol_interval (.error .httpError) emptyStore "BTCUSDT" "1m"
      = .ok emptyStore ∧
    fetch_klines_range (.ok []) = .ok [] ∧
    bootstrap_symbol_interval (.ok []) emptyStore "BTCUSDT" "1m"
      = .ok (set_candles emptyStore "BTCUSDT" "1m" []) :=
  ⟨C5_backfill_error_handling_amended.1 .httpError,
   C5_backfill_error_handling_amended.2.1 .httpError emptyStore "BTCUSDT" "1m",
   (C5_backfill_error_handling_amended.2.2.2 [] [] rfl).1,
   (C5_backfill_error_handling_amended.2.2.2 [] [] rfl).2 emptyStore "BTCUSDT" "1m"⟩

/-- C1 as stated is violated: with tail time 100, step 60 and an incoming
candle at time 161 we have new_ts > last_ts + step, yet no backfill is
requested (the requested end 101 would precede the start 160, failing the
second guard), the fetch oracle is never consulted, and the series ends as
the old tail plus the trigger only. -/
theorem C1_counterexample :
    gapRequestRange 60 100 161 = none ∧
    (100 : Int) + 60 < 161 ∧
    (ingestStep [] (fun _ _ => [mkC 130]) (fun _ => [mkC 100])
        "BTCUSDT" "1m" (mkC 161)) (build_candle_key "BTCUSDT" "1m")
      = [mkC 100, mkC 161] := by
  refine ⟨by decide, by decide, ?_⟩
  decide

/-- C1 amended: a backfill is requested iff last_ts + 2*step ≤ new_ts (for
positive step this is strictly stronger than new_ts > last_ts + step), and
then for exactly the inclusive range (last_ts+step, new_ts-step); on a
populated in-capacity series every fetched candle is upserted before the
triggering candle, and an empty fetch result still ends with the trigger
upserted; in the tail-T, trigger-T+3S instance with a successful backfill
of the two missing buckets, the series ends as the old series followed by
the two backfilled candles and the trigger. -/
theorem C1_gap_reconciliation_amended :
    (∀ step last_ts new_ts : Int, 1 ≤ step →
      ((gapRequestRange step last_ts new_ts).isSome ↔ last_ts + 2 * step ≤ new_ts) ∧
      (last_ts + 2 * step ≤ new_ts →
        gapRequestRange step last_ts new_ts = some (last_ts + step, new_ts - step))) ∧
    (∀ (boot : List Candle) (fetch : Int → Int → List Candle) (store : Store)
       (sym iv : String) (candle : Candle)
       (hne : store (build_candle_key sym iv) ≠ []),
      (store (build_candle_key sym iv)).length ≤ 1000 →
      (ingestStep boot fetch store sym iv candle) (build_candle_key sym iv) =
        appendCandle
          ((match gapRequestRange (interval_seconds iv)
              (((store (build_candle_key sym iv)).getLast hne).time) candle.time with
            | some range => fetch range.1 range.2
            | none => []).foldl appendCandle (store (build_candle_key sym iv)))
          candle) ∧
    (∀ (boot : List Candle) (fetch : Int → Int → List Candle) (store : Store)
       (sym iv : String) (candle g1 g2 : Candle)
       (hne : store (build_candle_key sym iv) ≠ []),
      (store (build_candle_key sym iv)).Pairwise ltTime →
      (store (build_candle_key sym iv)).length + 3 ≤ 1000 →
      1 ≤ interval_seconds iv →
      candle.time = ((store (build_candle_key sym iv)).getLast hne).time
        + 3 * interval_seconds iv →
      g1.time = ((store (build_candle_key sym iv)).getLast hne).time
        + interval_seconds iv →
      g2.time = ((store (build_candle_key sym iv)).getLast hne).time
        + 2 * interval_seconds iv →
      fetch (((store (build_candle_key sym iv)).getLast hne).time + interval_seconds iv)
          (((store (build_candle_key sym iv)).getLast hne).time + 2 * interval_seconds iv)
        = [g1, g2] →
      (ingestStep boot fetch store sym iv candle) (build_candle_key sym iv)
        = store (build_candle_key sym iv) ++ [g1, g2, candle]) := by
  refine ⟨?_, ?_, ?_⟩
  · intro step last_ts new_ts hstep
    constructor
    · rw [gapRequestRange]
      by_cases h1 : last_ts + step < new_ts
      · rw [if_pos h1]
        by_cases h2 : last_ts + step ≤ new_ts - step
        · rw [if_pos h2]
          simp only [Option.isSome_some, true_iff]
          omega
        · rw [if_neg h2]
          simp only [Option.isSome_none, Bool.false_eq_true, false_iff]
          omega
      · rw [if_neg h1]
        simp only [Option.isSome_none, Bool.false_eq_true, false_iff]
        omega
    · intro h2
      rw [gapRequestRange, if_pos (by omega), if_pos (by omega)]
  · intro boot fetch store sym iv candle hne hlen
    exact ingestStep_nonempty hne hlen
  · intro boot fetch store sym iv candle g1 g2 hne hsort hlen hstep hc hg1 hg2 hfetch
    rw [ingestStep_nonempty hne (by omega)]
    have hreq : gapRequestRange (interval_seconds iv)
        ((store (build_candle_key sym iv)).getLast hne).time candle.time
        = some (((store (build_candle_key sym iv)).getLast hne).time + interval_seconds iv,
                ((store (build_candle_key sym iv)).getLast hne).time
                  + 2 * interval_seconds iv) := by
      rw [hc]
      have harith : ((store (build_candle_key sym iv)).getLast hne).time
            + 3 * interval_seconds iv - interval_seconds iv
          = ((store (build_candle_key sym iv)).getLast hne).time
            + 2 * interval_seconds iv := by
        omega
      rw [gapRequestRange, if_pos (by omega), if_pos (by omega), harith]
    rw [hreq]
    simp only [hfetch]
    have hT := time_le_getLast hsort hne
    have hfold : [g1, g2].foldl appendCandle (store (build_candle_key sym iv))
        = store (build_candle_key sym iv) ++ [g1] ++ [g2] := by
      rw [List.foldl_cons, List.foldl_cons, List.foldl_nil]
      rw [appendCandle_append_of_gt hsort
        (fun a ha => by have := hT a ha; omega)
        (by rw [BUFFER_SIZE]; omega)]
      rw [appendCandle_append_of_gt
        (pairwise_append_singleton_time hsort (fun a ha => by have := hT a ha; omega))
        ?_ ?_]
      · intro a ha
        rcases List.mem_append.mp ha with ha2 | ha2
        · have := hT a ha2
          omega
        · rw [List.mem_singleton] at ha2
          subst ha2
          omega
      · simp only [List.length_append, List.length_cons, List.length_nil, BUFFER_SIZE]
        omega
    rw [hfold]
    rw [appendCandle_append_of_gt ?_ ?_ ?_]
    · simp [List.append_assoc]
    · refine pairwise_append_singleton_time
        (pairwise_append_singleton_time hsort (fun a ha => by have := hT a ha; omega)) ?_
      intro a ha
      rcases List.mem_append.mp ha with ha2 | ha2
      · have := hT a ha2
        omega
      · rw [List.mem_singleton] at ha2
        subst ha2
        omega
    · intro a ha
      rcases List.mem_append.mp ha with ha2 | ha2
      · rcases List.mem_append.mp ha2 with ha3 | ha3
        · have := hT a ha3
          omega
        · rw [List.mem_singleton] at ha3
          subst ha3
          omega
      · rw [List.mem_singleton] at ha2
        subst ha2
        omega
    · simp only [List.length_append, List.length_cons, List.length_nil, BUFFER_SIZE]
      omega

theorem C1_gap_reconciliation_amended_witness :
    ((gapRequestRange 60 100 280).isSome ↔ (100 : Int) + 2 * 60 ≤ 280) ∧
    (ingestStep [] (fun _ _ => [mkC 160, mkC 220]) (fun _ => [mkC 100])
        "BTCUSDT" "1m" (mkC 280)) (build_candle_key "BTCUSDT" "1m")
      = [mkC 100] ++ [mkC 160, mkC 220, mkC 280] :=
  ⟨(C1_gap_reconciliation_amended.1 60 100 280 (by decide)).1,
   C1_gap_reconciliation_amended.2.2 [] (fun _ _ => [mkC 160, mkC 220]) (fun _ => [mkC 100])
     "BTCUSDT" "1m" (mkC 280) (mkC 160) (mkC 220) (by decide) (by decide) (by decide)
     (by decide) (by decide) (by decide) (by decide) (by decide)⟩

/-- C7 as stated is violated: connection 7, subscribed to two keys, fails
during a broadcast on the first key; it was attempted (and its send
failed), yet afterwards it is still a subscriber of the second key and its
reverse-map entry still holds both keys — it is removed only from the
published key's subscriber set, not from the registry. -/
theorem C7_counterexample :
    ((broadcast_candle (fun _ => true)
        (subscribe (subscribe emptyRegistry 7 "BTCUSDT" "1m") 7 "BTCUSDT" "5m")
        "BTCUSDT" "1m" (mkC 100)).1).map Prod.fst = [7] ∧
    ((broadcast_candle (fun _ => true)
        (subscribe (subscribe emptyRegistry 7 "BTCUSDT" "1m") 7 "BTCUSDT" "5m")
        "BTCUSDT" "1m" (mkC 100)).2).subscribers (norm_key "BTCUSDT" "5m") = [7] ∧
    ((broadcast_candle (fun _ => true)
        (subscribe (subscribe emptyRegistry 7 "BTCUSDT" "1m") 7 "BTCUSDT" "5m")
        "BTCUSDT" "1m" (mkC 100)).2).connSubs 7
      = [norm_key "BTCUSDT" "1m", norm_key "BTCUSDT" "5m"] := by
  refine ⟨by decide, by decide, by decide⟩

/-- C7 amended: a broadcast serializes one message and attempts every
current subscriber of the key exactly once with it, independently of other
connections' failures; every failed connection is removed from the
subscriber set of the published key only — subscriber sets of other keys
and the whole reverse map are unchanged. -/
theorem C7_publish_failure_isolation_amended (fails : Conn → Bool) (r : Registry)
    (sym iv : String) (candle : Candle)
    (hnd : ∀ k, (r.subscribers k).Nodup) :
    (broadcast_candle fails r sym iv candle).1 =
      (r.subscribers (norm_key sym iv)).map (fun ws =>
        (ws, { symbol := (norm_key sym iv).1, interval := (norm_key sym iv).2,
               candle := candle : Msg })) ∧
    (∀ w, w ∈ r.subscribers (norm_key sym iv) →
      ((broadcast_candle fails r sym iv candle).1.map Prod.fst).count w = 1) ∧
    ((broadcast_candle fails r sym iv candle).2).subscribers (norm_key sym iv)
      = (r.subscribers (norm_key sym iv)).filter (fun w => !(fails w)) ∧
    (∀ k, k ≠ norm_key sym iv →
      ((broadcast_candle fails r sym iv candle).2).subscribers k = r.subscribers k) ∧
    ((broadcast_candle fails r sym iv candle).2).connSubs = r.connSubs := by
  refine ⟨broadcast_candle_attempts fails r sym iv candle, ?_,
    broadcast_candle_subscribers_at_key fails r sym iv candle (hnd _),
    fun k hk => broadcast_candle_subscribers_other fails r sym iv candle k hk,
    broadcast_candle_connSubs fails r sym iv candle⟩
  intro w hw
  rw [broadcast_candle_attempts, List.map_map]
  have hid : (Prod.fst ∘ fun ws : Conn =>
      (ws, { symbol := (norm_key sym iv).1, interval := (norm_key sym iv).2,
             candle := candle : Msg })) = id := rfl
  rw [hid, List.map_id]
  exact List.count_eq_one_of_mem (hnd _) hw

theorem C7_publish_failure_isolation_amended_witness :
    (broadcast_candle (fun _ => true) (subscribe emptyRegistry 7 "BTCUSDT" "1m")
        "BTCUSDT" "1m" (mkC 100)).1 =
      ((subscribe emptyRegistry 7 "BTCUSDT" "1m").subscribers (norm_key "BTCUSDT" "1m")).map
        (fun ws => (ws, { symbol := (norm_key "BTCUSDT" "1m").1,
                          interval := (norm_key "BTCUSDT" "1m").2,
                          candle := mkC 100 : Msg })) ∧
    (∀ w, w ∈ (subscribe emptyRegistry 7 "BTCUSDT" "1m").subscribers
        (norm_key "BTCUSDT" "1m") →
      (((broadcast_candle (fun _ => true) (subscribe emptyRegistry 7 "BTCUSDT" "1m")
        "BTCUSDT" "1m" (mkC 100)).1).map Prod.fst).count w = 1) ∧
    ((broadcast_candle (fun _ => true) (subscribe emptyRegistry 7 "BTCUSDT" "1m")
        "BTCUSDT" "1m" (mkC 100)).2).subscribers (norm_key "BTCUSDT" "1m")
      = ((subscribe emptyRegistry 7 "BTCUSDT" "1m").subscribers
          (norm_key "BTCUSDT" "1m")).filter (fun w => !((fun _ : Conn => true) w)) ∧
    (∀ k, k ≠ norm_key "BTCUSDT" "1m" →
      ((broadcast_candle (fun _ => true) (subscribe emptyRegistry 7 "BTCUSDT" "1m")
          "BTCUSDT" "1m" (mkC 100)).2).subscribers k
        = (subscribe emptyRegistry 7 "BTCUSDT" "1m").subscribers k) ∧
    ((broadcast_candle (fun _ => true) (subscribe emptyRegistry 7 "BTCUSDT" "1m")
        "BTCUSDT" "1m" (mkC 100)).2).connSubs
      = (subscribe emptyRegistry 7 "BTCUSDT" "1m").connSubs :=
  C7_publish_failure_isolation_amended (fun _ => true)
    (subscribe emptyRegistry 7 "BTCUSDT" "1m") "BTCUSDT" "1m" (mkC 100)
    (by
      intro k
      by_cases hk : k = norm_key "BTCUSDT" "1m"
      · simp [subscribe, emptyRegistry, setAdd, hk]
      · simp [subscribe, emptyRegistry, setAdd, hk])

/-- C8: after set_subscriptions, the connection's reverse-map entry holds
exactly the normalized new keys, the connection is a subscriber of exactly
those keys (in any reachable state: forward inclusion and set-nodup hold),
and a broadcast delivery attempt reaches the connection iff the broadcast
key's normalization is among the new keys — in particular never for a
previously held key that was not re-requested. -/
theorem C8_subscription_replacement (r : Registry) (ws : Conn)
    (subs : List (String × String))
    (hfwd : ∀ k, ws ∈ r.subscribers k → k ∈ r.connSubs ws)
    (hns : ∀ k, (r.subscribers k).Nodup) :
    (∀ k, k ∈ (set_subscriptions r ws subs).connSubs ws ↔
      k ∈ subs.map (fun p => norm_key p.1 p.2)) ∧
    (∀ k, ws ∈ (set_subscriptions r ws subs).subscribers k ↔
      k ∈ subs.map (fun p => norm_key p.1 p.2)) ∧
    (∀ (fails : Conn → Bool) (sym iv : String) (candle : Candle),
      ws ∈ ((broadcast_candle fails (set_subscriptions r ws subs) sym iv candle).1.map
          Prod.fst)
        ↔ norm_key sym iv ∈ subs.map (fun p => norm_key p.1 p.2)) := by
  have hmem : ∀ k, ws ∈ (set_subscriptions r ws subs).subscribers k ↔
      k ∈ subs.map (fun p => norm_key p.1 p.2) := by
    intro k
    rw [@set_subscriptions_subscribers_mem r ws subs ws k hfwd hns, if_pos rfl]
  refine ⟨?_, hmem, ?_⟩
  · intro k
    rw [set_subscriptions_connSubs, if_pos rfl]
    exact List.mem_dedup
  · intro fails sym iv candle
    rw [broadcast_candle_attempts, List.map_map]
    have hid : (Prod.fst ∘ fun w : Conn =>
        (w, { symbol := (norm_key sym iv).1, interval := (norm_key sym iv).2,
              candle := candle : Msg })) = id := rfl
    rw [hid, List.map_id]
    exact hmem (norm_key sym iv)

theorem C8_subscription_replacement_witness :
    (∀ k, k ∈ (set_subscriptions emptyRegistry 7 [("BTCUSDT", "5m")]).connSubs 7 ↔
      k ∈ [("BTCUSDT", "5m")].map (fun p => norm_key p.1 p.2)) ∧
    (∀ k, 7 ∈ (set_subscriptions emptyRegistry 7 [("BTCUSDT", "5m")]).subscribers k ↔
      k ∈ [("BTCUSDT", "5m")].map (fun p => norm_key p.1 p.2)) ∧
    (∀ (fails : Conn → Bool) (sym iv : String) (candle : Candle),
      7 ∈ ((broadcast_candle fails (set_subscriptions emptyRegistry 7 [("BTCUSDT", "5m")])
          sym iv candle).1.map Prod.fst)
        ↔ norm_key sym iv ∈ [("BTCUSDT", "5m")].map (fun p => norm_key p.1 p.2)) :=
  C8_subscription_replacement emptyRegistry 7 [("BTCUSDT", "5m")]
    (fun _ h => absurd h (List.not_mem_nil _))
    (fun _ => List.nodup_nil)

/-- C9 as stated is violated: after a broadcast in which the only
subscriber fails, the key is still recorded in the connection's reverse
entry while the connection is gone from the key's subscriber set — the
dead-connection cleanup inside broadcast_candle breaks the bidirectional
equivalence. -/
theorem C9_counterexample :
    norm_key "BTCUSDT" "1m" ∈
      ((broadcast_candle (fun _ => true) (subscribe emptyRegistry 7 "BTCUSDT" "1m")
          "BTCUSDT" "1m" (mkC 100)).2).connSubs 7 ∧
    7 ∉ ((broadcast_candle (fun _ => true) (subscribe emptyRegistry 7 "BTCUSDT" "1m")
          "BTCUSDT" "1m" (mkC 100)).2).subscribers (norm_key "BTCUSDT" "1m") := by
  refine ⟨by decide, by decide⟩

/-- C9 amended: the bidirectional invariant (with duplicate-free sets) is
preserved by subscribe, unsubscribe, set_subscriptions and unsubscribe_all;
the dead-connection cleanup inside broadcast_candle preserves only the
forward inclusion (subscriber entries are always reflected in the reverse
map) and the nodup facts — the backward direction can be broken, as the
counterexample shows. -/
theorem C9_registry_invariant_amended :
    (∀ (r : Registry) (ws : Conn) (sym iv : String),
      RegInv r → RegInv (subscribe r ws sym iv)) ∧
    (∀ (r : Registry) (ws : Conn) (sym iv : String),
      RegInv r → RegInv (unsubscribe r ws sym iv)) ∧
    (∀ (r : Registry) (ws : Conn) (subs : List (String × String)),
      RegInv r → RegInv (set_subscriptions r ws subs)) ∧
    (∀ (r : Registry) (ws : Conn), RegInv r → RegInv (unsubscribe_all r ws)) ∧
    (∀ (fails : Conn → Bool) (r : Registry) (sym iv : String) (candle : Candle),
      RegInvFwd r → (∀ k, (r.subscribers k).Nodup) →
      RegInvFwd ((broadcast_candle fails r sym iv candle).2) ∧
      ∀ k, (((broadcast_candle fails r sym iv candle).2).subscribers k).Nodup) :=
  ⟨fun _ _ _ _ => subscribe_RegInv, fun _ _ _ _ => unsubscribe_RegInv,
   fun _ _ _ => set_subscriptions_RegInv, fun _ _ => unsubscribe_all_RegInv,
   fun _ _ _ _ _ hf hn => broadcast_candle_fwd_nodup hf hn⟩

theorem C9_registry_invariant_amended_witness :
    RegInv (subscribe emptyRegistry 7 "BTCUSDT" "1m") ∧
    (RegInvFwd ((broadcast_candle (fun _ => true)
        (subscribe emptyRegistry 7 "BTCUSDT" "1m") "BTCUSDT" "1m" (mkC 100)).2) ∧
      ∀ k, (((broadcast_candle (fun _ => true)
          (subscribe emptyRegistry 7 "BTCUSDT" "1m") "BTCUSDT" "1m" (mkC 100)).2).subscribers
            k).Nodup) := by
  have h0 : RegInv emptyRegistry := by
    refine ⟨?_, ?_, ?_, ?_⟩
    · intro c k h
      exact absurd h (List.not_mem_nil _)
    · intro c k h
      exact absurd h (List.not_mem_nil _)
    · intro k
      exact List.nodup_nil
    · intro c
      exact List.nodup_nil
  have h1 := C9_registry_invariant_amended.1 emptyRegistry 7 "BTCUSDT" "1m" h0
  exact ⟨h1, C9_registry_invariant_amended.2.2.2.2 (fun _ => true)
    (subscribe emptyRegistry 7 "BTCUSDT" "1m") "BTCUSDT" "1m" (mkC 100) h1.1 h1.2.2.1⟩

end CryptoClever
